import Mathlib

/-!
Verification development for the kiwi_rates repository: a shallow embedding of
the change-detection and incremental-append history model (`src/storage.py`,
the merge step of `src/bnz/scraper.py`, and the latest-state reduction of
`src/html_generator.py`), together with theorems settling the specification
claims about it.

Modelling conventions:
* `rate_percentage` is modelled as `ℚ`.  The Python code stores rates as
  two-decimal numbers by convention; exact rational arithmetic reproduces the
  observable decimal values.
* `scraped_at` is modelled as an integer instant (seconds).  The scraper emits
  ISO-8601 strings in one uniform format, which compare lexicographically in
  the same order as the instants they denote, and Python datetime subtraction
  of two aware datetimes depends only on the instants.
* Python `dict`s are modelled as association lists with Python's semantics:
  inserting an existing key updates its value in place, a new key is appended;
  `dict` equality disregards insertion order.
-/

namespace KiwiRates

/-- The identity key of a rate series: `(product_name, term)`. -/
abbrev Key := String × String

/-- A freshly fetched rate entry, before stamping (output of the parser,
element of a snapshot): `product_name`, `term`, `rate_percentage`. -/
structure RawRate where
  product_name : String
  term : String
  rate_percentage : ℚ
deriving DecidableEq

/-- A persisted rate observation (element of a history's `rates` list):
a `RawRate` together with its `scraped_at` timestamp. -/
structure Observation where
  product_name : String
  term : String
  rate_percentage : ℚ
  scraped_at : Int
deriving DecidableEq

/-- The key `(product_name, term)` of a raw rate entry. -/
def RawRate.key (r : RawRate) : Key := (r.product_name, r.term)

/-- The key `(product_name, term)` of an observation. -/
def Observation.key (o : Observation) : Key := (o.product_name, o.term)

/-- Python `dict` insertion `m[k] = v`: if the key is present its value is
updated in place, otherwise the pair is appended at the end. -/
def dictInsert (m : List (Key × ℚ)) (k : Key) (v : ℚ) : List (Key × ℚ) :=
  match m with
  | [] => [(k, v)]
  | (k', v') :: rest => if k' = k then (k', v) :: rest else (k', v') :: dictInsert rest k v

/-- Python `dict` lookup on the association-list model (first match; the model
keeps keys unique, see `nodupKeys_buildDict`). -/
def dlookup (k : Key) : List (Key × ℚ) → Option ℚ
  | [] => none
  | (k', v) :: rest => if k' = k then some v else dlookup k rest

/-- Building a Python `dict` from a sequence of key/value pairs by repeated
insertion (the `for` loops of `should_update_rates` / `filter_changed_rates`). -/
def buildDict (l : List (Key × ℚ)) : List (Key × ℚ) :=
  l.foldl (fun m kv => dictInsert m kv.1 kv.2) []

/-- The `latest_existing` map of `storage.py`: one entry per `(product_name,
term)` key, holding the rate of the key's most recent observation (later list
entries win on key collision). -/
def latestExisting (existing : List Observation) : List (Key × ℚ) :=
  buildDict (existing.map fun o => (o.key, o.rate_percentage))

/-- The `new_rates_map` of `should_update_rates`: the same latest-wins map
built from the snapshot. -/
def newRatesMap (new : List RawRate) : List (Key × ℚ) :=
  buildDict (new.map fun r => (r.key, r.rate_percentage))

/-- Python `dict` equality on the association-list model: the same keys mapped
to the same values, regardless of insertion order. -/
def dictEq (a b : List (Key × ℚ)) : Bool :=
  a.all (fun kv => decide (dlookup kv.1 b = some kv.2)) &&
    b.all (fun kv => decide (dlookup kv.1 a = some kv.2))

/-- `should_update_rates` (src/storage.py lines 41-73): with an empty history,
update iff the snapshot is non-empty; otherwise compare the latest-wins maps
built from history and snapshot for dict inequality. -/
def should_update_rates (existing : List Observation) (new : List RawRate) : Bool :=
  if existing.isEmpty then !new.isEmpty
  else !dictEq (latestExisting existing) (newRatesMap new)

/-- `filter_changed_rates` (src/storage.py lines 76-104): keep the snapshot
entries whose key is absent from the latest-wins history map or whose rate
differs from the mapped value, in snapshot order. -/
def filter_changed_rates (existing : List Observation) (new : List RawRate) :
    List RawRate :=
  new.filter fun r =>
    match dlookup r.key (latestExisting existing) with
    | none => true
    | some v => decide (v ≠ r.rate_percentage)

/-- Specification-side reading of the latest-wins map over a history: the rate
of the most recent (= last in insertion order) observation for a key. -/
def latestRate (existing : List Observation) (k : Key) : Option ℚ :=
  ((existing.filter fun o => decide (o.key = k)).map Observation.rate_percentage).getLast?

/-- Specification-side reading of the latest-wins map over a snapshot: the
rate of the last snapshot entry carrying a key. -/
def latestSnapRate (new : List RawRate) (k : Key) : Option ℚ :=
  ((new.filter fun r => decide (r.key = k)).map RawRate.rate_percentage).getLast?

/-! ### The history merger (src/bnz/scraper.py lines 103-127) -/

/-- Stamping one changed entry with the batch timestamp
(`rate["scraped_at"] = now_iso`). -/
def stamp (t : Int) (r : RawRate) : Observation :=
  { product_name := r.product_name, term := r.term,
    rate_percentage := r.rate_percentage, scraped_at := t }

/-- The merge of scraper lines 110-115: stamp every changed entry with the one
batch timestamp and append them to the existing observations. -/
def merge_rates (existing : List Observation) (changed : List RawRate) (t : Int) :
    List Observation :=
  existing ++ changed.map (stamp t)

/-- The detect-and-merge step of `scrape_bnz_rates` (lines 103-118): when
`should_update_rates` holds, append the stamped changed entries; otherwise
keep the existing observations unchanged. -/
def scrape_update (existing : List Observation) (new : List RawRate) (t : Int) :
    List Observation :=
  if should_update_rates existing new then
    merge_rates existing (filter_changed_rates existing new) t
  else existing

/-! ### The latest-state reducer (src/html_generator.py lines 7-80) -/

/-- Rounding to two decimal places, Python's `round(x, 2)` on the two-decimal
rate values the pipeline stores.  For a difference of two two-decimal rates,
`100 * q` is an integer, so the result is exact and no rounding tie-breaking
rule is exercised. -/
def round2 (q : ℚ) : ℚ := ((round (100 * q) : ℤ) : ℚ) / 100

/-- Python `(now - earlier).days`: the whole-day count of a timedelta, which
floors towards negative infinity.  Instants are in seconds. -/
def daysBetween (earlier now : Int) : Int := Int.fdiv (now - earlier) 86400

/-- Insert an observation into a list sorted by `scraped_at`, after every
strictly earlier element, so that ties keep their original relative order. -/
def insertByScraped (a : Observation) : List Observation → List Observation
  | [] => [a]
  | b :: bs =>
    if b.scraped_at < a.scraped_at then b :: insertByScraped a bs else a :: b :: bs

/-- The sort of html_generator.py line 39,
`sorted(rate_list, key=lambda r: r["scraped_at"])`.  Python's `sorted` is a
stable sort, and stable sorting by a key is implementation-independent, so an
insertion sort that keeps ties in input order computes the same list. -/
def sortByScraped : List Observation → List Observation
  | [] => []
  | a :: l => insertByScraped a (sortByScraped l)

/-- The minimum `scraped_at` over a non-empty collection given as one element
plus the rest (`min(datetime.fromisoformat(r["scraped_at"]) for r in
sorted_rates)`, line 42). -/
def minScrapedOf (o : Observation) (rest : List Observation) : Int :=
  rest.foldl (fun acc r => min acc r.scraped_at) o.scraped_at

/-- One reduced record per key: the latest observation's fields enriched with
the five derived fields of html_generator.py lines 71-77. -/
structure EnrichedRate where
  product_name : String
  term : String
  rate_percentage : ℚ
  scraped_at : Int
  rate_change : ℚ
  is_recent_change : Bool
  is_new_product : Bool
  days_since_first_appearance : Int
  days_since_update : Int
deriving DecidableEq

/-- The per-key body of `extract_latest_rates` (lines 38-78) applied to the
reversal of the sorted partition, so that the head is `sorted_rates[-1]` and
the second element (when present) is `sorted_rates[-2]`. -/
def enrichSortedRev (now : Int) : List Observation → Option EnrichedRate
  | [] => none
  | latest :: restRev =>
    let min_scraped := minScrapedOf latest restRev
    let days_since_first_appearance := daysBetween min_scraped now
    let is_new_product := decide (days_since_first_appearance < 30)
    let rate_change : ℚ :=
      match restRev with
      | [] => 0
      | previous :: _ => round2 (latest.rate_percentage - previous.rate_percentage)
    let days_since_update := daysBetween latest.scraped_at now
    let is_recent_change := decide (rate_change ≠ 0) && decide (days_since_update ≤ 14)
    some { product_name := latest.product_name, term := latest.term,
           rate_percentage := latest.rate_percentage, scraped_at := latest.scraped_at,
           rate_change := rate_change, is_recent_change := is_recent_change,
           is_new_product := is_new_product,
           days_since_first_appearance := days_since_first_appearance,
           days_since_update := days_since_update }

/-- The per-key loop body of `extract_latest_rates` on one key's partition of
the history: sort stably by `scraped_at`, take the last entry as latest, and
derive change, recency and novelty against `now`.  Yields `none` only for the
empty partition, which the caller never produces. -/
def enrichPartition (part : List Observation) (now : Int) : Option EnrichedRate :=
  enrichSortedRev now (sortByScraped part).reverse

/-- The fold building the key list of `rates_by_product` starting from an
accumulator: Python dict keys appear in first-insertion order. -/
def firstKeysFrom (acc : List Key) (rs : List Observation) : List Key :=
  rs.foldl (fun acc r => if r.key ∈ acc then acc else acc ++ [r.key]) acc

/-- The keys of `rates_by_product` in Python dict iteration order: order of
first occurrence in the history. -/
def firstKeys (rs : List Observation) : List Key := firstKeysFrom [] rs

/-- `extract_latest_rates` (lines 7-80) on an already-loaded history with an
explicit current instant: group the observations by key preserving order, and
enrich each key's partition. -/
def extract_latest_rates (rs : List Observation) (now : Int) : List EnrichedRate :=
  if rs.isEmpty then []
  else (firstKeys rs).filterMap fun k =>
    enrichPartition (rs.filter fun o => decide (o.key = k)) now

/-- Specification-side earliest `scraped_at` of a list of observations. -/
def earliestScraped : List Observation → Option Int
  | [] => none
  | o :: rest => some (minScrapedOf o rest)

/-- `get_most_recent_rate_change` (html_generator.py lines 83-109): among the
entries with a non-zero `rate_change`, pick the one with the maximal
`scraped_at` (Python's `max` keeps the first maximal element) and return its
timestamp — the instant whose `strftime` date the page shows — with the day
count against `now`; `none` when the list is empty or nothing changed. -/
def get_most_recent_rate_change (rates : List EnrichedRate) (now : Int) :
    Option (Int × Int) :=
  if rates.isEmpty then none
  else
    match rates.filter (fun r => decide (r.rate_change ≠ 0)) with
    | [] => none
    | c :: cs =>
      let most_recent :=
        cs.foldl (fun best r => if best.scraped_at < r.scraped_at then r else best) c
      some (most_recent.scraped_at, daysBetween most_recent.scraped_at now)

/-! ### The history store loader (src/storage.py lines 6-24) -/

/-- The persisted record of one source file, as `load_rates` documents it. -/
structure RatesData where
  last_scraped : Option String
  bank_last_updated : Option String
  rates : List Observation
deriving DecidableEq

/-- The default record `load_rates` returns for a missing file. -/
def emptyRatesData : RatesData :=
  { last_scraped := none, bank_last_updated := none, rates := [] }

/-- `load_rates`: a missing file (`file = none`) yields the empty record;
otherwise the file text goes through `json.load`, modelled by the function
`json_load` from the text alone — the path is never passed to it, and its
error (Python's `json.JSONDecodeError`) propagates unwrapped. -/
def load_rates (json_load : String → Except String RatesData)
    (path : String) (file : Option String) : Except String RatesData :=
  match file with
  | none => Except.ok emptyRatesData
  | some text => json_load text

/-! ### Concrete example data -/

/-- An example persisted observation: Standard 1 year at 4.49, instant 1. -/
def obs449 : Observation := ⟨"Std", "1y", 449/100, 1⟩

/-- An example persisted observation: Standard 1 year at 4.59, instant 2. -/
def obs459 : Observation := ⟨"Std", "1y", 459/100, 2⟩

/-- An example persisted observation: Standard 6 months at 4.69, instant 1. -/
def obs469 : Observation := ⟨"Std", "6m", 469/100, 1⟩

/-- An example persisted observation: Standard 6 months at 4.49, instant 2. -/
def obs449b : Observation := ⟨"Std", "6m", 449/100, 2⟩

/-- The enriched state for the partition `[obs449, obs459]` at instant 3. -/
def eUp : EnrichedRate := ⟨"Std", "1y", 459/100, 2, 1/10, true, true, 0, 0⟩

/-- The enriched state for the partition `[obs469, obs449b]` at instant 3. -/
def eDown : EnrichedRate := ⟨"Std", "6m", 449/100, 2, -(1/5), true, true, 0, 0⟩

/-- A two-observation partition whose latest entry is 14 days old. -/
def part14 : List Observation := [⟨"A", "1y", 9/2, 0⟩, ⟨"A", "1y", 23/5, 100⟩]

/-- An instant exactly 14 days after the latest entry of `part14`. -/
def now14 : Int := 100 + 14 * 86400

/-- The enriched state for `part14` at `now14`. -/
def e14 : EnrichedRate := ⟨"A", "1y", 23/5, 100, 1/10, true, true, 14, 14⟩

/-- A single-observation partition. -/
def part30 : List Observation := [⟨"B", "1y", 5, 0⟩]

/-- An instant exactly 30 days after the only entry of `part30`. -/
def now30 : Int := 30 * 86400

/-- The enriched state for `part30` at `now30`. -/
def e30 : EnrichedRate := ⟨"B", "1y", 5, 0, 0, false, false, 30, 30⟩

/-- An enriched state with a non-zero change at instant 50. -/
def chgA : EnrichedRate := ⟨"A", "1y", 9/2, 50, 1/10, true, true, 0, 0⟩

/-- An enriched state with no change at the later instant 100. -/
def chgB : EnrichedRate := ⟨"B", "1y", 5, 100, 0, false, false, 0, 0⟩

/-- A model of Python `json.load` applied to the malformed text
`\x7binvalid json content`: it raises `json.JSONDecodeError` with the message
below, which is built from the text alone and never contains the file path. -/
def jsonLoadStub : String → Except String RatesData := fun _ =>
  Except.error "Expecting property name enclosed in double quotes: line 1 column 2 (char 1)"

/-! ### Association-list lemmas -/

theorem dlookup_dictInsert (m : List (Key × ℚ)) (k k' : Key) (v : ℚ) :
    dlookup k' (dictInsert m k v) = if k = k' then some v else dlookup k' m := by
  induction m with
  | nil =>
    by_cases h : k = k' <;> simp [dictInsert, dlookup, h]
  | cons kv rest ih =>
    obtain ⟨k₀, v₀⟩ := kv
    by_cases h0 : k₀ = k
    · subst h0
      by_cases h : k₀ = k' <;> simp [dictInsert, dlookup, h]
    · by_cases h : k₀ = k'
      · subst h
        simp [dictInsert, dlookup, h0, Ne.symm h0, ih]
      · simp [dictInsert, dlookup, h0, h, ih]

theorem keys_dictInsert (m : List (Key × ℚ)) (k : Key) (v : ℚ) :
    (dictInsert m k v).map Prod.fst =
      if k ∈ m.map Prod.fst then m.map Prod.fst else m.map Prod.fst ++ [k] := by
  induction m with
  | nil => simp [dictInsert]
  | cons kv rest ih =>
    obtain ⟨k₀, v₀⟩ := kv
    by_cases h0 : k₀ = k
    · subst h0
      simp [dictInsert]
    · by_cases h : k ∈ rest.map Prod.fst <;>
        simp [dictInsert, h0, h, ih, Ne.symm h0]

theorem nodupKeys_dictInsert (m : List (Key × ℚ)) (k : Key) (v : ℚ)
    (h : (m.map Prod.fst).Nodup) : ((dictInsert m k v).map Prod.fst).Nodup := by
  rw [keys_dictInsert]
  by_cases hk : k ∈ m.map Prod.fst
  · simpa [hk] using h
  · rw [if_neg hk]
    refine List.Nodup.append h (List.nodup_singleton k) ?_
    intro a ha hak
    rw [List.mem_singleton] at hak
    exact hk (hak ▸ ha)

theorem nodupKeys_buildDict (l : List (Key × ℚ)) :
    ((buildDict l).map Prod.fst).Nodup := by
  suffices h : ∀ m : List (Key × ℚ), (m.map Prod.fst).Nodup →
      ((l.foldl (fun m kv => dictInsert m kv.1 kv.2) m).map Prod.fst).Nodup by
    exact h [] (by simp)
  induction l with
  | nil => intro m hm; simpa using hm
  | cons kv rest ih =>
    intro m hm
    exact ih (dictInsert m kv.1 kv.2) (nodupKeys_dictInsert m kv.1 kv.2 hm)

theorem dlookup_some_mem {m : List (Key × ℚ)} {k : Key} {v : ℚ}
    (h : dlookup k m = some v) : (k, v) ∈ m := by
  induction m with
  | nil => simp [dlookup] at h
  | cons kv rest ih =>
    obtain ⟨k₀, v₀⟩ := kv
    by_cases h0 : k₀ = k
    · subst h0
      simp [dlookup] at h
      simp [h]
    · simp [dlookup, h0] at h
      simp [ih h]

theorem mem_dlookup {m : List (Key × ℚ)} {k : Key} {v : ℚ}
    (hm : (m.map Prod.fst).Nodup) (h : (k, v) ∈ m) : dlookup k m = some v := by
  induction m with
  | nil => simp at h
  | cons kv rest ih =>
    obtain ⟨k₀, v₀⟩ := kv
    rw [List.map_cons, List.nodup_cons] at hm
    rcases List.mem_cons.mp h with h1 | h1
    · cases h1
      simp [dlookup]
    · have hne : k₀ ≠ k := by
        rintro rfl
        exact hm.1 (List.mem_map.mpr ⟨(k₀, v), h1, rfl⟩)
      simp [dlookup, hne, ih hm.2 h1]

/-- Python dict equality on nodup-key association lists is extensional
equality of lookup. -/
theorem dictEq_iff {a b : List (Key × ℚ)}
    (ha : (a.map Prod.fst).Nodup) (hb : (b.map Prod.fst).Nodup) :
    dictEq a b = true ↔ ∀ k, dlookup k a = dlookup k b := by
  constructor
  · intro h k
    rw [dictEq, Bool.and_eq_true, List.all_eq_true, List.all_eq_true] at h
    obtain ⟨h1, h2⟩ := h
    cases hka : dlookup k a with
    | some v =>
      have h1v : dlookup k b = some v := of_decide_eq_true (h1 (k, v) (dlookup_some_mem hka))
      rw [h1v]
    | none =>
      cases hkb : dlookup k b with
      | none => rfl
      | some w =>
        have h2w : dlookup k a = some w := of_decide_eq_true (h2 (k, w) (dlookup_some_mem hkb))
        simp [hka] at h2w
  · intro h
    rw [dictEq, Bool.and_eq_true, List.all_eq_true, List.all_eq_true]
    refine ⟨fun kv hkv => decide_eq_true ?_, fun kv hkv => decide_eq_true ?_⟩
    · rw [← h kv.1]
      exact mem_dlookup ha hkv
    · rw [h kv.1]
      exact mem_dlookup hb hkv

/-! ### Bridging the dict model with the latest-per-key reading -/

theorem latestExisting_concat (rs : List Observation) (r : Observation) :
    latestExisting (rs ++ [r]) = dictInsert (latestExisting rs) r.key r.rate_percentage := by
  simp [latestExisting, buildDict, List.map_append, List.foldl_append]

theorem newRatesMap_concat (rs : List RawRate) (r : RawRate) :
    newRatesMap (rs ++ [r]) = dictInsert (newRatesMap rs) r.key r.rate_percentage := by
  simp [newRatesMap, buildDict, List.map_append, List.foldl_append]

theorem latestRate_concat (rs : List Observation) (r : Observation) (k : Key) :
    latestRate (rs ++ [r]) k =
      if r.key = k then some r.rate_percentage else latestRate rs k := by
  by_cases h : r.key = k <;>
    simp [latestRate, List.filter_append, List.map_append, h]

theorem latestSnapRate_concat (rs : List RawRate) (r : RawRate) (k : Key) :
    latestSnapRate (rs ++ [r]) k =
      if r.key = k then some r.rate_percentage else latestSnapRate rs k := by
  by_cases h : r.key = k <;>
    simp [latestSnapRate, List.filter_append, List.map_append, h]

theorem dlookup_latestExisting (rs : List Observation) (k : Key) :
    dlookup k (latestExisting rs) = latestRate rs k := by
  induction rs using List.reverseRecOn with
  | nil => rfl
  | append_singleton rs r ih =>
    rw [latestExisting_concat, dlookup_dictInsert, latestRate_concat, ih]

theorem dlookup_newRatesMap (rs : List RawRate) (k : Key) :
    dlookup k (newRatesMap rs) = latestSnapRate rs k := by
  induction rs using List.reverseRecOn with
  | nil => rfl
  | append_singleton rs r ih =>
    rw [newRatesMap_concat, dlookup_dictInsert, latestSnapRate_concat, ih]

theorem latestRate_eq_none_iff (rs : List Observation) (k : Key) :
    latestRate rs k = none ↔ ∀ o ∈ rs, o.key ≠ k := by
  simp [latestRate]

theorem latestSnapRate_eq_none_iff (rs : List RawRate) (k : Key) :
    latestSnapRate rs k = none ↔ ∀ r ∈ rs, r.key ≠ k := by
  simp [latestSnapRate]

theorem latestSnapRate_some_mem {rs : List RawRate} {k : Key} {v : ℚ}
    (h : latestSnapRate rs k = some v) : ∃ r ∈ rs, r.key = k ∧ r.rate_percentage = v := by
  induction rs using List.reverseRecOn with
  | nil => simp [latestSnapRate] at h
  | append_singleton rs r ih =>
    rw [latestSnapRate_concat] at h
    by_cases hk : r.key = k
    · rw [if_pos hk] at h
      exact ⟨r, by simp, hk, Option.some.inj h⟩
    · rw [if_neg hk] at h
      obtain ⟨s, hs, hsk, hsv⟩ := ih h
      exact ⟨s, by simp [hs], hsk, hsv⟩

/-- With duplicate-free snapshot keys, each snapshot entry is its own key's
latest entry. -/
theorem latestSnapRate_of_nodup {rs : List RawRate}
    (hnd : (rs.map RawRate.key).Nodup) {s : RawRate} (hs : s ∈ rs) :
    latestSnapRate rs s.key = some s.rate_percentage := by
  induction rs using List.reverseRecOn with
  | nil => simp at hs
  | append_singleton rs r ih =>
    rw [List.map_append, List.nodup_append] at hnd
    rw [latestSnapRate_concat]
    rcases List.mem_append.mp hs with h1 | h1
    · have hne : r.key ≠ s.key := by
        intro he
        exact hnd.2.2 (List.mem_map.mpr ⟨s, h1, rfl⟩) (by simp [he])
      rw [if_neg hne]
      exact ih hnd.1 h1
    · rw [List.mem_singleton] at h1
      subst h1
      simp

/-- `filter_changed_rates` is the snapshot filtered by disagreement with the
history's latest rate per key. -/
theorem filter_changed_eq (existing : List Observation) (new : List RawRate) :
    filter_changed_rates existing new =
      new.filter fun r => decide (latestRate existing r.key ≠ some r.rate_percentage) := by
  unfold filter_changed_rates
  refine List.filter_congr fun r _ => ?_
  rw [dlookup_latestExisting]
  cases h : latestRate existing r.key with
  | none => simp
  | some v => exact decide_eq_decide.mpr (by simp)

/-- `should_update_rates` decides extensional inequality of the latest-per-key
maps (snapshot non-emptiness when the history is empty). -/
theorem should_update_iff (existing : List Observation) (new : List RawRate) :
    should_update_rates existing new = true ↔
      if existing = [] then new ≠ []
      else ¬ ∀ k, latestRate existing k = latestSnapRate new k := by
  cases existing with
  | nil => simp [should_update_rates]
  | cons o os =>
    rw [if_neg (List.cons_ne_nil o os)]
    have hb : should_update_rates (o :: os) new
        = !dictEq (latestExisting (o :: os)) (newRatesMap new) := by
      simp [should_update_rates]
    rw [hb, Bool.not_eq_true', ← Bool.not_eq_true]
    apply not_congr
    have h1 : ((latestExisting (o :: os)).map Prod.fst).Nodup := nodupKeys_buildDict _
    have h2 : ((newRatesMap new).map Prod.fst).Nodup := nodupKeys_buildDict _
    rw [dictEq_iff h1 h2]
    exact forall_congr' fun k => by rw [dlookup_latestExisting, dlookup_newRatesMap]

/-! ### Sorting lemmas -/

theorem insertByScraped_perm (a : Observation) (l : List Observation) :
    List.Perm (insertByScraped a l) (a :: l) := by
  induction l with
  | nil => exact List.Perm.refl _
  | cons b bs ih =>
    simp only [insertByScraped]
    by_cases h : b.scraped_at < a.scraped_at
    · rw [if_pos h]
      exact (ih.cons b).trans (List.Perm.swap a b bs)
    · rw [if_neg h]

theorem sortByScraped_perm (l : List Observation) : List.Perm (sortByScraped l) l := by
  induction l with
  | nil => exact List.Perm.refl _
  | cons a l ih => exact (insertByScraped_perm a (sortByScraped l)).trans (ih.cons a)

/-- A stable sort leaves an already chronologically ordered partition
unchanged. -/
theorem sortByScraped_eq_of_chron {l : List Observation}
    (h : l.Pairwise fun a b => a.scraped_at ≤ b.scraped_at) : sortByScraped l = l := by
  induction l with
  | nil => rfl
  | cons a l ih =>
    rw [List.pairwise_cons] at h
    show insertByScraped a (sortByScraped l) = a :: l
    rw [ih h.2]
    cases l with
    | nil => rfl
    | cons b bs =>
      have hab : ¬ b.scraped_at < a.scraped_at := not_lt.mpr (h.1 b (by simp))
      simp [insertByScraped, hab]

/-! ### Reducer structure lemmas -/

theorem enrichPartition_rev_cons {part : List Observation} {now : Int}
    {latest : Observation} {restRev : List Observation}
    (hrev : (sortByScraped part).reverse = latest :: restRev) :
    enrichPartition part now = enrichSortedRev now (latest :: restRev) := by
  rw [enrichPartition, hrev]

/-- Unpacking a successful `enrichPartition`: every derived field in terms of
the reversed sorted partition. -/
theorem enrichPartition_fields {part : List Observation} {now : Int} {e : EnrichedRate}
    (h : enrichPartition part now = some e) :
    ∃ latest restRev, (sortByScraped part).reverse = latest :: restRev ∧
      e.product_name = latest.product_name ∧ e.term = latest.term ∧
      e.rate_percentage = latest.rate_percentage ∧ e.scraped_at = latest.scraped_at ∧
      e.rate_change = (match restRev with
        | [] => (0 : ℚ)
        | previous :: _ => round2 (latest.rate_percentage - previous.rate_percentage)) ∧
      e.is_recent_change
        = (decide (e.rate_change ≠ 0) && decide (daysBetween latest.scraped_at now ≤ 14)) ∧
      e.is_new_product = decide (daysBetween (minScrapedOf latest restRev) now < 30) ∧
      e.days_since_first_appearance = daysBetween (minScrapedOf latest restRev) now ∧
      e.days_since_update = daysBetween latest.scraped_at now := by
  cases hrev : (sortByScraped part).reverse with
  | nil => rw [enrichPartition, hrev] at h; exact absurd h (by simp [enrichSortedRev])
  | cons latest restRev =>
    rw [enrichPartition_rev_cons hrev] at h
    simp only [enrichSortedRev, Option.some.injEq] at h
    subst h
    exact ⟨latest, restRev, rfl, rfl, rfl, rfl, rfl, rfl, rfl, rfl, rfl, rfl⟩

/-- A non-empty partition always enriches, and the enriched record copies the
base fields of one of the partition's own observations. -/
theorem enrichPartition_of_ne_nil {part : List Observation} (hne : part ≠ []) (now : Int) :
    ∃ e, enrichPartition part now = some e ∧ ∃ o ∈ part,
      e.product_name = o.product_name ∧ e.term = o.term ∧
      e.rate_percentage = o.rate_percentage ∧ e.scraped_at = o.scraped_at := by
  cases hrev : (sortByScraped part).reverse with
  | nil =>
    exfalso
    apply hne
    have hlen := (sortByScraped_perm part).length_eq
    rw [← List.length_reverse (sortByScraped part), hrev] at hlen
    exact List.eq_nil_of_length_eq_zero hlen.symm
  | cons latest restRev =>
    have hmem : latest ∈ part := by
      have h1 : latest ∈ (sortByScraped part).reverse := by rw [hrev]; simp
      rw [List.mem_reverse] at h1
      exact (sortByScraped_perm part).mem_iff.mp h1
    refine ⟨_, enrichPartition_rev_cons hrev, latest, hmem, rfl, rfl, rfl, rfl⟩

/-! ### Key-list lemmas for the reducer -/

theorem mem_firstKeysFrom (rs : List Observation) :
    ∀ (acc : List Key) (k : Key),
      k ∈ firstKeysFrom acc rs ↔ k ∈ acc ∨ k ∈ rs.map Observation.key := by
  induction rs with
  | nil => intro acc k; simp [firstKeysFrom]
  | cons r rs ih =>
    intro acc k
    show k ∈ firstKeysFrom (if r.key ∈ acc then acc else acc ++ [r.key]) rs ↔ _
    rw [ih]
    by_cases h : r.key ∈ acc
    · rw [if_pos h, List.map_cons]
      simp only [List.mem_cons]
      constructor
      · rintro (h1 | h1)
        · exact Or.inl h1
        · exact Or.inr (Or.inr h1)
      · rintro (h1 | h1 | h1)
        · exact Or.inl h1
        · exact Or.inl (h1 ▸ h)
        · exact Or.inr h1
    · rw [if_neg h, List.map_cons]
      simp only [List.mem_append, List.mem_singleton, List.mem_cons]
      tauto

theorem nodup_firstKeysFrom (rs : List Observation) :
    ∀ acc : List Key, acc.Nodup → (firstKeysFrom acc rs).Nodup := by
  induction rs with
  | nil => intro acc h; exact h
  | cons r rs ih =>
    intro acc h
    show (firstKeysFrom (if r.key ∈ acc then acc else acc ++ [r.key]) rs).Nodup
    by_cases hm : r.key ∈ acc
    · rw [if_pos hm]; exact ih acc h
    · rw [if_neg hm]
      refine ih _ (List.Nodup.append h (List.nodup_singleton _) ?_)
      intro a ha hak
      rw [List.mem_singleton] at hak
      exact hm (hak ▸ ha)

theorem mem_firstKeys (rs : List Observation) (k : Key) :
    k ∈ firstKeys rs ↔ k ∈ rs.map Observation.key := by
  rw [firstKeys, mem_firstKeysFrom]
  simp

theorem nodup_firstKeys (rs : List Observation) : (firstKeys rs).Nodup :=
  nodup_firstKeysFrom rs [] List.nodup_nil

theorem mem_extract_latest_rates {rs : List Observation} {now : Int} {e : EnrichedRate} :
    e ∈ extract_latest_rates rs now ↔
      ∃ k ∈ firstKeys rs,
        enrichPartition (rs.filter fun o => decide (o.key = k)) now = some e := by
  unfold extract_latest_rates
  by_cases h : rs.isEmpty
  · rw [if_pos h]
    cases rs with
    | nil => simp [firstKeys, firstKeysFrom]
    | cons a l => simp at h
  · rw [if_neg h, List.mem_filterMap]

theorem partition_ne_nil {rs : List Observation} {k : Key}
    (h : k ∈ rs.map Observation.key) :
    rs.filter (fun o => decide (o.key = k)) ≠ [] := by
  obtain ⟨o, ho, hk⟩ := List.mem_map.mp h
  intro hnil
  have hmem : o ∈ rs.filter (fun o => decide (o.key = k)) :=
    List.mem_filter.mpr ⟨ho, by simp [hk]⟩
  rw [hnil] at hmem
  simp at hmem

theorem filterMap_keys {f : Key → Option EnrichedRate} :
    ∀ {l : List Key}, (∀ k ∈ l, ∃ e, f k = some e ∧ (e.product_name, e.term) = k) →
      (l.filterMap f).map (fun e => (e.product_name, e.term)) = l := by
  intro l
  induction l with
  | nil => intro _; rfl
  | cons k l ih =>
    intro h
    obtain ⟨e, hfe, hke⟩ := h k (by simp)
    rw [List.filterMap_cons_some hfe, List.map_cons, hke,
      ih fun k hk => h k (by simp [hk])]

/-- The reducer emits states whose keys are exactly the history's distinct
keys, in first-occurrence order. -/
theorem extract_keys (rs : List Observation) (now : Int) :
    (extract_latest_rates rs now).map (fun e => (e.product_name, e.term))
      = firstKeys rs := by
  unfold extract_latest_rates
  by_cases h : rs.isEmpty
  · rw [if_pos h]
    cases rs with
    | nil => simp [firstKeys, firstKeysFrom]
    | cons a l => simp at h
  · rw [if_neg h]
    refine filterMap_keys fun k hk => ?_
    have hkm : k ∈ rs.map Observation.key := (mem_firstKeys rs k).mp hk
    obtain ⟨e, he, o, ho, h1, h2, _, _⟩ :=
      enrichPartition_of_ne_nil (partition_ne_nil hkm) now
    refine ⟨e, he, ?_⟩
    have hok := (List.mem_filter.mp ho).2
    rw [decide_eq_true_iff] at hok
    rw [h1, h2]
    exact hok

/-! ### Fold lemmas for minimum and maximum selection -/

theorem foldlMin_le_init (l : List Observation) (a : Int) :
    l.foldl (fun acc r => min acc r.scraped_at) a ≤ a := by
  induction l generalizing a with
  | nil => exact le_refl a
  | cons r l ih => exact le_trans (ih (min a r.scraped_at)) (min_le_left _ _)

theorem foldlMin_le_mem {l : List Observation} {r : Observation} (h : r ∈ l) (a : Int) :
    l.foldl (fun acc r => min acc r.scraped_at) a ≤ r.scraped_at := by
  induction l generalizing a with
  | nil => simp at h
  | cons r' l ih =>
    rcases List.mem_cons.mp h with h1 | h1
    · subst h1
      exact le_trans (foldlMin_le_init l _) (min_le_right _ _)
    · exact ih h1 _

theorem foldlMin_eq_init_or_mem (l : List Observation) (a : Int) :
    l.foldl (fun acc r => min acc r.scraped_at) a = a ∨
      ∃ r ∈ l, l.foldl (fun acc r => min acc r.scraped_at) a = r.scraped_at := by
  induction l generalizing a with
  | nil => exact Or.inl rfl
  | cons r' l ih =>
    have hstep : (r' :: l).foldl (fun acc r => min acc r.scraped_at) a
        = l.foldl (fun acc r => min acc r.scraped_at) (min a r'.scraped_at) := rfl
    rcases ih (min a r'.scraped_at) with h | ⟨r, hr, hrr⟩
    · rcases min_choice a r'.scraped_at with hm | hm
      · exact Or.inl (by rw [hstep, h, hm])
      · exact Or.inr ⟨r', by simp, by rw [hstep, h, hm]⟩
    · exact Or.inr ⟨r, by simp [hr], by rw [hstep, hrr]⟩

theorem minScrapedOf_le {o : Observation} {rest : List Observation} {x : Observation}
    (h : x = o ∨ x ∈ rest) : minScrapedOf o rest ≤ x.scraped_at := by
  rcases h with h | h
  · subst h
    exact foldlMin_le_init rest x.scraped_at
  · exact foldlMin_le_mem h _

theorem minScrapedOf_attained (o : Observation) (rest : List Observation) :
    ∃ x, (x = o ∨ x ∈ rest) ∧ minScrapedOf o rest = x.scraped_at := by
  rcases foldlMin_eq_init_or_mem rest o.scraped_at with h | ⟨r, hr, hrr⟩
  · exact ⟨o, Or.inl rfl, h⟩
  · exact ⟨r, Or.inr hr, hrr⟩

/-- The fold minimum depends only on which observations are present. -/
theorem minScrapedOf_eq_of_mem_equiv {o o' : Observation} {rest rest' : List Observation}
    (h : ∀ x, (x = o ∨ x ∈ rest) ↔ (x = o' ∨ x ∈ rest')) :
    minScrapedOf o rest = minScrapedOf o' rest' := by
  apply le_antisymm
  · obtain ⟨x, hx, hxe⟩ := minScrapedOf_attained o' rest'
    rw [hxe]
    exact minScrapedOf_le ((h x).mpr hx)
  · obtain ⟨x, hx, hxe⟩ := minScrapedOf_attained o rest
    rw [hxe]
    exact minScrapedOf_le ((h x).mp hx)

theorem foldlMax_mem (cs : List EnrichedRate) (c : EnrichedRate) :
    cs.foldl (fun best r => if best.scraped_at < r.scraped_at then r else best) c = c ∨
      cs.foldl (fun best r => if best.scraped_at < r.scraped_at then r else best) c ∈ cs := by
  induction cs generalizing c with
  | nil => exact Or.inl rfl
  | cons r cs ih =>
    have hstep : (r :: cs).foldl (fun best r => if best.scraped_at < r.scraped_at then r else best) c
        = cs.foldl (fun best r => if best.scraped_at < r.scraped_at then r else best)
            (if c.scraped_at < r.scraped_at then r else c) := rfl
    rcases ih (if c.scraped_at < r.scraped_at then r else c) with h | h
    · by_cases hc : c.scraped_at < r.scraped_at
      · refine Or.inr ?_
        rw [hstep, h, if_pos hc]
        simp
      · refine Or.inl ?_
        rw [hstep, h, if_neg hc]
    · refine Or.inr ?_
      rw [hstep]
      exact List.mem_cons_of_mem r h

theorem foldlMax_ge_init (cs : List EnrichedRate) (c : EnrichedRate) :
    c.scraped_at ≤
      (cs.foldl (fun best r => if best.scraped_at < r.scraped_at then r else best) c).scraped_at := by
  induction cs generalizing c with
  | nil => exact le_refl _
  | cons r cs ih =>
    show c.scraped_at ≤ (List.foldl _ (if c.scraped_at < r.scraped_at then r else c) cs).scraped_at
    by_cases hc : c.scraped_at < r.scraped_at
    · rw [if_pos hc]
      exact le_trans hc.le (ih r)
    · rw [if_neg hc]
      exact ih c

theorem foldlMax_ge_mem {cs : List EnrichedRate} {x : EnrichedRate} (h : x ∈ cs)
    (c : EnrichedRate) :
    x.scraped_at ≤
      (cs.foldl (fun best r => if best.scraped_at < r.scraped_at then r else best) c).scraped_at := by
  induction cs generalizing c with
  | nil => simp at h
  | cons r cs ih =>
    show x.scraped_at ≤ (List.foldl _ (if c.scraped_at < r.scraped_at then r else c) cs).scraped_at
    rcases List.mem_cons.mp h with h1 | h1
    · subst h1
      by_cases hc : c.scraped_at < x.scraped_at
      · rw [if_pos hc]
        exact foldlMax_ge_init cs x
      · rw [if_neg hc]
        exact le_trans (not_lt.mp hc) (foldlMax_ge_init cs c)
    · exact ih h1 _

/-! ### Reversal helpers -/

theorem sorted_of_rev {α : Type} {l : List α} {a : α} {restRev : List α}
    (hrev : l.reverse = a :: restRev) : l = restRev.reverse ++ [a] := by
  have h := congrArg List.reverse hrev
  rw [List.reverse_reverse] at h
  simpa using h

theorem head_rev_sorted_mem {l : List Observation} {latest : Observation}
    {restRev : List Observation}
    (hrev : (sortByScraped l).reverse = latest :: restRev) : latest ∈ l := by
  have h1 : latest ∈ (sortByScraped l).reverse := by rw [hrev]; simp
  rw [List.mem_reverse] at h1
  exact (sortByScraped_perm l).mem_iff.mp h1

/-! ### Latest rates of a merged history -/

theorem latestRate_append_list (l₁ l₂ : List Observation) (k : Key) :
    latestRate (l₁ ++ l₂) k = match latestRate l₂ k with
      | some v => some v
      | none => latestRate l₁ k := by
  induction l₂ using List.reverseRecOn with
  | nil => simp [latestRate]
  | append_singleton l₂ r ih =>
    rw [← List.append_assoc, latestRate_concat, latestRate_concat]
    by_cases h : r.key = k
    · simp [h]
    · simp [h, ih]

theorem latestRate_map_stamp (changed : List RawRate) (t : Int) (k : Key) :
    latestRate (changed.map (stamp t)) k = latestSnapRate changed k := by
  induction changed using List.reverseRecOn with
  | nil => rfl
  | append_singleton changed r ih =>
    have hmap : (changed ++ [r]).map (stamp t) = changed.map (stamp t) ++ [stamp t r] := by
      simp
    rw [hmap, latestRate_concat, latestSnapRate_concat, ih]
    have hk : (stamp t r).key = r.key := rfl
    rw [hk]
    rfl

theorem snap_key_unique {snap : List RawRate} (hnd : (snap.map RawRate.key).Nodup)
    {r s : RawRate} (hr : r ∈ snap) (hs : s ∈ snap) (hk : r.key = s.key) : r = s :=
  List.inj_on_of_nodup_map hnd hr hs hk

/-- The single changed entry per key: filtering the snapshot by the change
predicate and then by a key gives the key's unique entry when it changed,
nothing otherwise. -/
theorem filter_changed_filter_key {existing : List Observation} {snap : List RawRate}
    (hnd : (snap.map RawRate.key).Nodup) {s : RawRate} (hs : s ∈ snap) :
    (filter_changed_rates existing snap).filter (fun r => decide (r.key = s.key))
      = if latestRate existing s.key ≠ some s.rate_percentage then [s] else [] := by
  rw [filter_changed_eq]
  have hsingle : snap.filter (fun r => decide (r.key = s.key)) = [s] := by
    have hnds : snap.Nodup := List.Nodup.of_map RawRate.key hnd
    have hmem : s ∈ snap.filter (fun r => decide (r.key = s.key)) :=
      List.mem_filter.mpr ⟨hs, by simp⟩
    have hall : ∀ r ∈ snap.filter (fun r => decide (r.key = s.key)), r = s := by
      intro r hr
      have h1 := List.mem_filter.mp hr
      exact snap_key_unique hnd h1.1 hs (of_decide_eq_true h1.2)
    have hnodupf : (snap.filter (fun r => decide (r.key = s.key))).Nodup :=
      hnds.filter _
    rcases hf : snap.filter (fun r => decide (r.key = s.key)) with _ | ⟨a, t⟩
    · rw [hf] at hmem
      simp at hmem
    · rw [hf] at hall hnodupf
      have ha : a = s := hall a (by simp)
      have ht : t = [] := by
        rcases t with _ | ⟨b, t'⟩
        · rfl
        · exfalso
          have hb : b = s := hall b (by simp)
          rw [List.nodup_cons] at hnodupf
          exact hnodupf.1 (by rw [ha, hb]; simp)
      rw [hf, ha, ht]
  have hcomm : (snap.filter
          (fun r => decide (latestRate existing r.key ≠ some r.rate_percentage))).filter
        (fun r => decide (r.key = s.key))
      = (snap.filter (fun r => decide (r.key = s.key))).filter
          (fun r => decide (latestRate existing r.key ≠ some r.rate_percentage)) := by
    rw [List.filter_filter, List.filter_filter]
    exact List.filter_congr fun r _ => Bool.and_comm _ _
  rw [hcomm, hsingle]
  by_cases hch : latestRate existing s.key ≠ some s.rate_percentage
  · rw [if_pos hch]
    simp [hch]
  · rw [if_neg hch]
    simp [hch]

/-- Core idempotence lemma: after merging the changed entries of a
duplicate-free, key-covering snapshot, the history's latest rate for every
key agrees with the snapshot's. -/
theorem latestRate_merge_changed (existing : List Observation) (snap : List RawRate)
    (t : Int) (hnd : (snap.map RawRate.key).Nodup)
    (hcov : ∀ k ∈ existing.map Observation.key, k ∈ snap.map RawRate.key) (k : Key) :
    latestRate (merge_rates existing (filter_changed_rates existing snap) t) k
      = latestSnapRate snap k := by
  have hm : merge_rates existing (filter_changed_rates existing snap) t
      = existing ++ (filter_changed_rates existing snap).map (stamp t) := rfl
  rw [hm, latestRate_append_list, latestRate_map_stamp]
  cases hs : latestSnapRate snap k with
  | none =>
    rw [latestSnapRate_eq_none_iff] at hs
    have hC : latestSnapRate (filter_changed_rates existing snap) k = none := by
      rw [latestSnapRate_eq_none_iff]
      intro r hr
      exact hs r (List.mem_of_mem_filter hr)
    have hE : latestRate existing k = none := by
      rw [latestRate_eq_none_iff]
      intro o ho hk
      obtain ⟨r, hrm, hrk⟩ :=
        List.mem_map.mp (hcov k (List.mem_map.mpr ⟨o, ho, hk⟩))
      exact hs r hrm hrk
    rw [hC, hE]
  | some v =>
    obtain ⟨s, hsm, hsk, hsv⟩ := latestSnapRate_some_mem hs
    subst hsk
    subst hsv
    have hCk : latestSnapRate (filter_changed_rates existing snap) s.key
        = if latestRate existing s.key ≠ some s.rate_percentage
          then some s.rate_percentage else none := by
      rw [latestSnapRate, filter_changed_filter_key hnd hsm]
      by_cases hch : latestRate existing s.key ≠ some s.rate_percentage
      · rw [if_pos hch, if_pos hch]
        rfl
      · rw [if_neg hch, if_neg hch]
        rfl
    by_cases hch : latestRate existing s.key ≠ some s.rate_percentage
    · rw [hCk, if_pos hch]
    · rw [hCk, if_neg hch]
      rw [not_not] at hch
      rw [hch]

/-! ### Concrete evaluations -/

theorem enrichUp_eval : enrichPartition [obs449, obs459] 3 = some eUp := by
  have hf1 : Int.fdiv 1 86400 = 0 := by decide
  have hf2 : Int.fdiv 2 86400 = 0 := by decide
  norm_num [enrichPartition, sortByScraped, insertByScraped, enrichSortedRev,
    minScrapedOf, daysBetween, round2, round_eq, obs449, obs459, eUp, hf1, hf2]

theorem enrichDown_eval : enrichPartition [obs469, obs449b] 3 = some eDown := by
  have hf1 : Int.fdiv 1 86400 = 0 := by decide
  have hf2 : Int.fdiv 2 86400 = 0 := by decide
  norm_num [enrichPartition, sortByScraped, insertByScraped, enrichSortedRev,
    minScrapedOf, daysBetween, round2, round_eq, obs469, obs449b, eDown, hf1, hf2]

theorem enrich14_eval : enrichPartition part14 now14 = some e14 := by
  have hf1 : Int.fdiv 1209600 86400 = 14 := by decide
  have hf2 : Int.fdiv 1209700 86400 = 14 := by decide
  norm_num [enrichPartition, sortByScraped, insertByScraped, enrichSortedRev,
    minScrapedOf, daysBetween, round2, round_eq, part14, now14, e14, hf1, hf2]

theorem enrich30_eval : enrichPartition part30 now30 = some e30 := by
  have hf1 : Int.fdiv 2592000 86400 = 30 := by decide
  norm_num [enrichPartition, sortByScraped, insertByScraped, enrichSortedRev,
    minScrapedOf, daysBetween, round2, round_eq, part30, now30, e30, hf1]

theorem mostRecent_eval : get_most_recent_rate_change [chgA, chgB] 90000 = some (50, 1) := by
  have hf1 : Int.fdiv 89950 86400 = 1 := by decide
  norm_num [get_most_recent_rate_change, chgA, chgB, daysBetween, hf1]

theorem extractOutOfOrder_eval :
    extract_latest_rates [⟨"A", "1y", 4, 2⟩, ⟨"A", "1y", 5, 1⟩] 100
      = [⟨"A", "1y", 4, 2, -1, true, true, 0, 0⟩] := by
  have hpart : (([⟨"A", "1y", 4, 2⟩, ⟨"A", "1y", 5, 1⟩] : List Observation).filter
      (fun o => decide (o.key = ("A", "1y"))))
        = [⟨"A", "1y", 4, 2⟩, ⟨"A", "1y", 5, 1⟩] := by decide
  have hfk : firstKeys [⟨"A", "1y", 4, 2⟩, ⟨"A", "1y", 5, 1⟩] = [("A", "1y")] := by decide
  have hf98 : Int.fdiv 98 86400 = 0 := by decide
  have hf99 : Int.fdiv 99 86400 = 0 := by decide
  have henr : enrichPartition [(⟨"A", "1y", 4, 2⟩ : Observation), ⟨"A", "1y", 5, 1⟩] 100
      = some ⟨"A", "1y", 4, 2, -1, true, true, 0, 0⟩ := by
    norm_num [enrichPartition, sortByScraped, insertByScraped, enrichSortedRev,
      minScrapedOf, daysBetween, round2, round_eq, hf98, hf99]
  rw [extract_latest_rates, if_neg (by decide), hfk]
  simp only [List.filterMap_cons, List.filterMap_nil, hpart, henr]

theorem tenth_ne_zero : (1 : ℚ)/10 ≠ 0 := by norm_num

/-! ### Claim theorems -/

/-- C1: for an empty history `should_update_rates` is true iff the snapshot is
non-empty; otherwise it is true iff the latest-wins key-to-rate map of the
history differs extensionally from that of the snapshot.  In particular a
snapshot carrying the history's latest key/rate pairs in a different order
yields false. -/
theorem should_update_detects_latest_map_change :
    (∀ (existing : List Observation) (new : List RawRate),
      should_update_rates existing new = true ↔
        if existing = [] then new ≠ []
        else ¬ ∀ k, latestRate existing k = latestSnapRate new k)
    ∧ should_update_rates
        [⟨"A", "1y", 4, 0⟩, ⟨"B", "2y", 5, 0⟩]
        [⟨"B", "2y", 5⟩, ⟨"A", "1y", 4⟩] = false :=
  ⟨should_update_iff, by decide⟩

/-- C1 witness: an empty history against a one-entry snapshot updates. -/
theorem should_update_detects_latest_map_change_witness :
    should_update_rates [] [⟨"A", "1y", 4⟩] = true :=
  (should_update_detects_latest_map_change.1 [] [⟨"A", "1y", 4⟩]).mpr (by simp)

/-- C2: `filter_changed_rates` returns exactly the snapshot entries whose key
is absent from the history's latest-per-key map or whose rate differs, as a
filter of the snapshot — hence a subsequence of the snapshot in the snapshot's
order. -/
theorem filter_changed_returns_changed_subsequence :
    ∀ (existing : List Observation) (new : List RawRate),
      filter_changed_rates existing new
          = new.filter (fun r => decide (latestRate existing r.key ≠ some r.rate_percentage))
        ∧ (filter_changed_rates existing new).Sublist new :=
  fun existing new =>
    ⟨filter_changed_eq existing new, by
      rw [filter_changed_eq]
      exact List.filter_sublist new⟩

/-- C2 witness: only the changed entry of a two-entry snapshot survives. -/
theorem filter_changed_returns_changed_subsequence_witness :
    filter_changed_rates [⟨"A", "1y", 4, 0⟩] [⟨"A", "1y", 4⟩, ⟨"B", "2y", 5⟩]
      = [⟨"B", "2y", 5⟩] := by
  rw [(filter_changed_returns_changed_subsequence [⟨"A", "1y", 4, 0⟩]
    [⟨"A", "1y", 4⟩, ⟨"B", "2y", 5⟩]).1]
  decide

/-- C3: the merged history is exactly the prior observations (unchanged, in
place) followed at the tail by the changed entries in their order, each
stamped with the single batch timestamp and otherwise field-identical. -/
theorem merge_appends_stamped_changes :
    ∀ (existing : List Observation) (changed : List RawRate) (t : Int),
      (merge_rates existing changed t).take existing.length = existing
      ∧ (merge_rates existing changed t).drop existing.length = changed.map (stamp t)
      ∧ (∀ o ∈ (merge_rates existing changed t).drop existing.length, o.scraped_at = t)
      ∧ ((merge_rates existing changed t).drop existing.length).map
            (fun o => (o.product_name, o.term, o.rate_percentage))
          = changed.map fun r => (r.product_name, r.term, r.rate_percentage) := by
  intro existing changed t
  have hm : merge_rates existing changed t = existing ++ changed.map (stamp t) := rfl
  rw [hm]
  refine ⟨List.take_left existing _, List.drop_left existing _, ?_, ?_⟩
  · intro o ho
    rw [List.drop_left] at ho
    obtain ⟨r, _, rfl⟩ := List.mem_map.mp ho
    rfl
  · rw [List.drop_left, List.map_map]
    rfl

/-- C3 witness: a concrete merge keeps the old entry and stamps the new one. -/
theorem merge_appends_stamped_changes_witness :
    (merge_rates [⟨"A", "1y", 4, 0⟩] [⟨"B", "2y", 5⟩] 7).take 1 = [⟨"A", "1y", 4, 0⟩]
    ∧ (stamp 7 ⟨"B", "2y", 5⟩).scraped_at = 7 := by
  have h := merge_appends_stamped_changes [⟨"A", "1y", 4, 0⟩] [⟨"B", "2y", 5⟩] 7
  exact ⟨h.1, h.2.2.1 (stamp 7 ⟨"B", "2y", 5⟩) (by decide)⟩

/-- C4 counterexample: on a history stored out of chronological order, the
reducer's latest entry is the last element after sorting by `scraped_at`
(html_generator.py line 39), not the last entry by position: here the reducer
reports rate 4 while the positionally last observation has rate 5. -/
theorem reducer_latest_not_positional :
    (extract_latest_rates [⟨"A", "1y", 4, 2⟩, ⟨"A", "1y", 5, 1⟩] 100).map
        EnrichedRate.rate_percentage = [4]
    ∧ (([⟨"A", "1y", 4, 2⟩, ⟨"A", "1y", 5, 1⟩] : List Observation).map
        Observation.rate_percentage).getLast? = some 5
    ∧ (4 : ℚ) ≠ 5 := by
  rw [extractOutOfOrder_eval]
  exact ⟨by decide, by decide, by decide⟩

/-- C4 amended: per key the reducer's latest is the last element of the
partition stably sorted by `scraped_at`; this equals the last entry by
position whenever the stored partition is chronologically ordered; and one
enriched state is emitted per distinct key of the history. -/
theorem reducer_latest_is_sorted_last (rs : List Observation) (now : Int) :
    (∀ e ∈ extract_latest_rates rs now,
        (sortByScraped (rs.filter fun o => decide (o.key = (e.product_name, e.term)))).getLast?
          = some ⟨e.product_name, e.term, e.rate_percentage, e.scraped_at⟩)
    ∧ (∀ e ∈ extract_latest_rates rs now,
        ((rs.filter fun o => decide (o.key = (e.product_name, e.term))).Pairwise
            fun a b => a.scraped_at ≤ b.scraped_at) →
          (rs.filter fun o => decide (o.key = (e.product_name, e.term))).getLast?
            = some ⟨e.product_name, e.term, e.rate_percentage, e.scraped_at⟩)
    ∧ ((extract_latest_rates rs now).map fun e => (e.product_name, e.term)).Nodup
    ∧ ∀ k, (k ∈ (extract_latest_rates rs now).map fun e => (e.product_name, e.term))
        ↔ k ∈ rs.map Observation.key := by
  have main : ∀ e ∈ extract_latest_rates rs now,
      (sortByScraped (rs.filter fun o => decide (o.key = (e.product_name, e.term)))).getLast?
        = some ⟨e.product_name, e.term, e.rate_percentage, e.scraped_at⟩ := by
    intro e he
    obtain ⟨k, hk, henr⟩ := mem_extract_latest_rates.mp he
    obtain ⟨latest, restRev, hrev, hpn, htm, hrp, hsc, _, _, _, _, _⟩ :=
      enrichPartition_fields henr
    have hlm : latest ∈ rs.filter fun o => decide (o.key = k) := head_rev_sorted_mem hrev
    have hkk : latest.key = k := of_decide_eq_true (List.mem_filter.mp hlm).2
    have hkey : (e.product_name, e.term) = k := by
      rw [hpn, htm]
      exact hkk
    rw [hkey, sorted_of_rev hrev, List.getLast?_concat, hpn, htm, hrp, hsc]
  refine ⟨main, fun e he hchron => ?_, ?_, fun k => ?_⟩
  · rw [← sortByScraped_eq_of_chron hchron]
    exact main e he
  · rw [extract_keys]
    exact nodup_firstKeys rs
  · rw [extract_keys]
    exact mem_firstKeys rs k

/-- C4 witness: for a chronological singleton history the positional last
entry is the reducer's latest. -/
theorem reducer_latest_is_sorted_last_witness :
    ([(⟨"A", "1y", 4, 1⟩ : Observation)].filter
        fun o => decide (o.key = ("A", "1y"))).getLast? = some ⟨"A", "1y", 4, 1⟩ :=
  (reducer_latest_is_sorted_last [⟨"A", "1y", 4, 1⟩] 50).2.1
    ⟨"A", "1y", 4, 1, 0, false, true, 0, 0⟩ (by decide) (by decide)

/-- C5 counterexample: merging the changed entries of a snapshot that lacks a
key present in the history does not quiesce the detector — `should_update`
still reports a change on the merged history with the same snapshot. -/
theorem detector_not_idempotent :
    should_update_rates
        (merge_rates [⟨"A", "1y", 4, 0⟩]
          (filter_changed_rates [⟨"A", "1y", 4, 0⟩] [⟨"B", "1y", 4⟩]) 1)
        [⟨"B", "1y", 4⟩] = true := by decide

/-- C5 amended: merging the changed entries of a snapshot into the history is
idempotent for the Change Detector — `should_update_rates` becomes false and
`filter_changed_rates` empty — provided the snapshot has duplicate-free keys
and covers every key present in the history. -/
theorem detector_idempotent_of_covering_nodup (existing : List Observation)
    (snap : List RawRate) (t : Int)
    (hnd : (snap.map RawRate.key).Nodup)
    (hcov : ∀ k ∈ existing.map Observation.key, k ∈ snap.map RawRate.key) :
    should_update_rates (merge_rates existing (filter_changed_rates existing snap) t) snap
        = false
    ∧ filter_changed_rates (merge_rates existing (filter_changed_rates existing snap) t) snap
        = [] := by
  have hlat := latestRate_merge_changed existing snap t hnd hcov
  constructor
  · rw [← Bool.not_eq_true, should_update_iff]
    by_cases hm : merge_rates existing (filter_changed_rates existing snap) t = []
    · rw [if_pos hm, not_not]
      have hm' : existing ++ (filter_changed_rates existing snap).map (stamp t) = [] := hm
      rw [List.append_eq_nil] at hm'
      obtain ⟨hex, hch⟩ := hm'
      rw [List.map_eq_nil_iff] at hch
      rw [hex] at hch
      have hall : filter_changed_rates [] snap = snap := by
        rw [filter_changed_eq]
        refine List.filter_eq_self.mpr fun r hr => ?_
        simp [latestRate]
      rw [hall] at hch
      exact hch
    · rw [if_neg hm, not_not]
      intro k
      exact hlat k
  · rw [filter_changed_eq, List.filter_eq_nil_iff]
    intro r hr
    simp [hlat r.key, latestSnapRate_of_nodup hnd hr]

/-- C5 witness: a one-key snapshot covering the one-key history quiesces the
detector after its changed entries are merged. -/
theorem detector_idempotent_of_covering_nodup_witness :
    should_update_rates
        (merge_rates [⟨"A", "1y", 4, 0⟩]
          (filter_changed_rates [⟨"A", "1y", 4, 0⟩] [⟨"A", "1y", 5⟩]) 1)
        [⟨"A", "1y", 5⟩] = false
    ∧ filter_changed_rates
        (merge_rates [⟨"A", "1y", 4, 0⟩]
          (filter_changed_rates [⟨"A", "1y", 4, 0⟩] [⟨"A", "1y", 5⟩]) 1)
        [⟨"A", "1y", 5⟩] = [] :=
  detector_idempotent_of_covering_nodup [⟨"A", "1y", 4, 0⟩] [⟨"A", "1y", 5⟩] 1
    (by decide) (by decide)

/-- C6: within each key partition of the reduce step, `rate_change` is the
two-decimal-rounded difference between the rates of the last and second-to-
last entries of the sorted partition, and 0.00 when the partition holds a
single observation. -/
theorem rate_change_from_last_two (part : List Observation) (now : Int)
    (e : EnrichedRate) (h : enrichPartition part now = some e) :
    (∀ latest previous, (sortByScraped part).getLast? = some latest →
        ((sortByScraped part).dropLast).getLast? = some previous →
        e.rate_change = round2 (latest.rate_percentage - previous.rate_percentage))
    ∧ (part.length = 1 → e.rate_change = 0) := by
  obtain ⟨latest₀, restRev, hrev, _, _, _, _, hrc, _, _, _, _⟩ := enrichPartition_fields h
  have hlen : part.length = (sortByScraped part).length :=
    ((sortByScraped_perm part).length_eq).symm
  cases restRev with
  | nil =>
    have hs : sortByScraped part = [latest₀] := by
      have h1 := sorted_of_rev hrev
      simpa using h1
    constructor
    · intro latest previous hl hp
      rw [hs] at hp
      simp at hp
    · intro _
      exact hrc
  | cons prev₀ rest' =>
    have hs : sortByScraped part = (rest'.reverse ++ [prev₀]) ++ [latest₀] := by
      have h1 := sorted_of_rev hrev
      rw [h1, List.reverse_cons]
    constructor
    · intro latest previous hl hp
      rw [hs, List.getLast?_concat] at hl
      rw [hs, List.dropLast_concat, List.getLast?_concat] at hp
      obtain rfl : latest₀ = latest := Option.some.inj hl
      obtain rfl : prev₀ = previous := Option.some.inj hp
      exact hrc
    · intro hlen1
      exfalso
      rw [hlen, hs] at hlen1
      simp at hlen1

/-- C6 witness: 4.49 then 4.59 yields a change of 0.10, and 4.69 then 4.49
yields -0.20. -/
theorem rate_change_from_last_two_witness :
    eUp.rate_change = round2 ((459 : ℚ)/100 - 449/100)
    ∧ eUp.rate_change = 1/10
    ∧ eDown.rate_change = round2 ((449 : ℚ)/100 - 469/100)
    ∧ eDown.rate_change = -(1/5) := by
  have hsortUp : sortByScraped [obs449, obs459] = [obs449, obs459] :=
    sortByScraped_eq_of_chron (by decide)
  have hsortDown : sortByScraped [obs469, obs449b] = [obs469, obs449b] :=
    sortByScraped_eq_of_chron (by decide)
  refine ⟨(rate_change_from_last_two [obs449, obs459] 3 eUp enrichUp_eval).1 obs459 obs449
      (by rw [hsortUp]; rfl) (by rw [hsortUp]; rfl),
    rfl,
    (rate_change_from_last_two [obs469, obs449b] 3 eDown enrichDown_eval).1 obs449b obs469
      (by rw [hsortDown]; rfl) (by rw [hsortDown]; rfl),
    rfl⟩

/-- C7: the reducer's `is_recent_change` holds iff the change is non-zero and
the latest observation is at most 14 whole days old, and `is_new_product`
holds iff the key's earliest observation is strictly less than 30 whole days
old, day counts taken against the injected current instant. -/
theorem recency_and_novelty_flags (part : List Observation) (now : Int)
    (e : EnrichedRate) (h : enrichPartition part now = some e) :
    (e.is_recent_change = true ↔ e.rate_change ≠ 0 ∧ daysBetween e.scraped_at now ≤ 14)
    ∧ ∀ m, earliestScraped part = some m →
        (e.is_new_product = true ↔ daysBetween m now < 30) := by
  obtain ⟨latest, restRev, hrev, _, _, _, hsc, _, hrec, hnew, _, _⟩ :=
    enrichPartition_fields h
  constructor
  · rw [hrec, hsc, Bool.and_eq_true, decide_eq_true_iff, decide_eq_true_iff]
  · intro m hm
    cases part with
    | nil => simp [earliestScraped] at hm
    | cons p ps =>
      simp only [earliestScraped, Option.some.injEq] at hm
      have hmin : minScrapedOf latest restRev = minScrapedOf p ps := by
        refine minScrapedOf_eq_of_mem_equiv fun x => ?_
        have h1 : x ∈ latest :: restRev ↔ x ∈ p :: ps := by
          rw [← hrev, List.mem_reverse]
          exact (sortByScraped_perm (p :: ps)).mem_iff
        simpa [List.mem_cons] using h1
      rw [hnew, hmin, hm, decide_eq_true_iff]

/-- C7 witness: a non-zero change exactly 14 days old is recent, and a key
first seen exactly 30 days ago is not new. -/
theorem recency_and_novelty_flags_witness :
    e14.is_recent_change = true ∧ e30.is_new_product = false := by
  have h14 := (recency_and_novelty_flags part14 now14 e14 enrich14_eval).1
  have h30 := (recency_and_novelty_flags part30 now30 e30 enrich30_eval).2 0 rfl
  constructor
  · exact h14.mpr ⟨tenth_ne_zero, by decide⟩
  · cases hb : e30.is_new_product
    · rfl
    · exact absurd (h30.mp hb) (by decide)

/-- C8: loading from a missing file yields the empty record (null metadata,
no observations) without error, while on unparsable contents `load_rates`
returns exactly the error of `json.load` — an error computed from the file
text alone, identical for every path, so it cannot name the offending path
as the claim (and the repository's own test) requires. -/
theorem load_rates_missing_empty_error_passthrough
    (json_load : String → Except String RatesData) :
    (∀ p, load_rates json_load p none = Except.ok emptyRatesData)
    ∧ ∀ text err p₁ p₂, json_load text = Except.error err →
        load_rates json_load p₁ (some text) = Except.error err
        ∧ load_rates json_load p₁ (some text) = load_rates json_load p₂ (some text) :=
  ⟨fun _ => rfl, fun _ _ _ _ h => ⟨h, rfl⟩⟩

/-- C8 witness: on the malformed text of the repository's own corrupt-file
test, the raised error is the parser's message — the same for two different
paths, naming neither — while the missing file still loads as empty. -/
theorem load_rates_missing_empty_error_passthrough_witness :
    load_rates jsonLoadStub "data/bnz_rates.json" (some "\x7binvalid json content")
        = Except.error
            "Expecting property name enclosed in double quotes: line 1 column 2 (char 1)"
    ∧ load_rates jsonLoadStub "data/bnz_rates.json" (some "\x7binvalid json content")
        = load_rates jsonLoadStub "another/path.json" (some "\x7binvalid json content")
    ∧ load_rates jsonLoadStub "data/bnz_rates.json" none = Except.ok emptyRatesData := by
  have h := load_rates_missing_empty_error_passthrough jsonLoadStub
  exact ⟨(h.2 _ _ _ "another/path.json" rfl).1, (h.2 _ _ _ "another/path.json" rfl).2, h.1 _⟩

/-- C9: the most-recent-change computation returns `none` exactly when no
entry has a non-zero `rate_change` (in particular on the empty list), and
otherwise returns the timestamp — whose calendar date the page formats — and
day count of an entry with non-zero change carrying the maximal timestamp. -/
theorem most_recent_change_selection (rates : List EnrichedRate) (now : Int) :
    (get_most_recent_rate_change rates now = none ↔ ∀ r ∈ rates, r.rate_change = 0)
    ∧ ∀ ts d, get_most_recent_rate_change rates now = some (ts, d) →
        d = daysBetween ts now
        ∧ (∃ r ∈ rates, r.rate_change ≠ 0 ∧ r.scraped_at = ts)
        ∧ ∀ r ∈ rates, r.rate_change ≠ 0 → r.scraped_at ≤ ts := by
  rcases rates with _ | ⟨a, rs'⟩
  · constructor
    · simp [get_most_recent_rate_change]
    · intro ts d h
      simp [get_most_recent_rate_change] at h
  · have h0 : get_most_recent_rate_change (a :: rs') now
        = match (a :: rs').filter (fun r => decide (r.rate_change ≠ 0)) with
          | [] => none
          | c :: cs =>
            some ((cs.foldl (fun best r =>
                if best.scraped_at < r.scraped_at then r else best) c).scraped_at,
              daysBetween (cs.foldl (fun best r =>
                if best.scraped_at < r.scraped_at then r else best) c).scraped_at now) := rfl
    rw [h0]
    cases hf : (a :: rs').filter (fun r => decide (r.rate_change ≠ 0)) with
    | nil =>
      constructor
      · constructor
        · intro _ r hr
          by_contra hne
          have hmem : r ∈ (a :: rs').filter (fun r => decide (r.rate_change ≠ 0)) :=
            List.mem_filter.mpr ⟨hr, decide_eq_true hne⟩
          rw [hf] at hmem
          simp at hmem
        · intro _
          rfl
      · intro ts d h
        simp at h
    | cons c cs =>
      constructor
      · constructor
        · intro h
          simp at h
        · intro hall
          exfalso
          have hc : c ∈ (a :: rs').filter (fun r => decide (r.rate_change ≠ 0)) := by
            rw [hf]
            simp
          have h1 := List.mem_filter.mp hc
          exact (of_decide_eq_true h1.2) (hall c h1.1)
      · intro ts d h
        simp only [Option.some.injEq, Prod.mk.injEq] at h
        obtain ⟨hts, hd⟩ := h
        have hMmem : (cs.foldl (fun best r =>
            if best.scraped_at < r.scraped_at then r else best) c) ∈ c :: cs := by
          rcases foldlMax_mem cs c with h1 | h1
          · rw [h1]
            simp
          · exact List.mem_cons_of_mem c h1
        have hMfilter : (cs.foldl (fun best r =>
            if best.scraped_at < r.scraped_at then r else best) c)
              ∈ (a :: rs').filter (fun r => decide (r.rate_change ≠ 0)) := by
          rw [hf]
          exact hMmem
        have hMm := List.mem_filter.mp hMfilter
        refine ⟨by rw [← hts, ← hd], ⟨_, hMm.1, of_decide_eq_true hMm.2, hts⟩, ?_⟩
        intro r hr hrc
        have hrf : r ∈ (a :: rs').filter (fun r => decide (r.rate_change ≠ 0)) :=
          List.mem_filter.mpr ⟨hr, decide_eq_true hrc⟩
        rw [hf] at hrf
        rw [← hts]
        rcases List.mem_cons.mp hrf with h1 | h1
        · rw [h1]
          exact foldlMax_ge_init cs c
        · exact foldlMax_ge_mem h1 c

/-- C9 witness: with one changed entry at instant 50 and an unchanged one at
100, the reported change is the changed entry's instant 50 with its day
count. -/
theorem most_recent_change_selection_witness :
    (1 : ℤ) = daysBetween 50 90000
    ∧ (∃ r ∈ [chgA, chgB], r.rate_change ≠ 0 ∧ r.scraped_at = 50) := by
  have h := (most_recent_change_selection [chgA, chgB] 90000).2 50 1 mostRecent_eval
  exact ⟨h.1, h.2.1⟩

/-- C10: on a snapshot with two same-key entries of different rates against a
history holding the second entry's rate, `should_update_rates` is false (the
last snapshot occurrence wins in the map comparison) while
`filter_changed_rates` still returns the first, differing entry — the two
detector operations disagree. -/
theorem detectors_disagree_on_duplicate_keys :
    should_update_rates [⟨"A", "1y", 4, 0⟩] [⟨"A", "1y", 5⟩, ⟨"A", "1y", 4⟩] = false
    ∧ filter_changed_rates [⟨"A", "1y", 4, 0⟩] [⟨"A", "1y", 5⟩, ⟨"A", "1y", 4⟩]
        = [⟨"A", "1y", 5⟩] := by decide

end KiwiRates
